import Mathlib

/-!
Verification development for fakeDataGenerator/pointsToOutwardDigraph.py.

The Python module builds a directed weighted graph from a Delaunay
triangulation of a radially ordered point list, and renames nodes to
synthetic identifiers.  We embed the module shallowly:

* Points are coordinate vectors, modelled as lists of integers (the
  source uses floating point numbers; every claim under study is about
  graph structure or about exactly representable values, so an exact
  numeric type is used).
* The pygraph digraph class is modelled by the structure digraph below:
  a node list in insertion order (node with attribute list) and an edge
  list in insertion order (edge key, weight, label, attribute list).
  The pygraph tables node_neighbors, node_incidence, edge_properties and
  edge_attr are all derived views of these two lists, kept in sync by
  the pygraph mutators; the model keeps the two lists directly.
* Python exceptions are modelled with Except String; a Python for loop
  that can raise is modelled by the structural fold foldE.
* math.sqrt is irrational valued, hence not exactly representable by an
  executable Lean definition.  The model stores as edge weight the value
  the source passes to math.sqrt, namely the sum of squared coordinate
  differences (the squared Euclidean distance).  Since the square root
  function is injective on nonnegative arguments and no weight is ever
  inspected by the code, this is a faithful rendering: two stored
  weights are equal exactly when the corresponding source weights are.
-/

/-- Coordinate vector of a point, one entry per dimension. -/
abbrev Point : Type := List Int

/-- Attribute lists attached to nodes and edges, as name and value pairs. -/
abbrev Attrs : Type := List (String × String)

/-- Python strings as lists of Unicode code points.  The source builds node
identifiers with chr and string concatenation; Python allows any code point
below 0x110000 there, which the Lean type Char does not, so identifiers are
modelled as code point lists. -/
abbrev PyStr : Type := List Nat

/-- Model of pygraph.classes.digraph.digraph: nodes in insertion order with
their attribute lists, and edges in insertion order with weight, label and
attribute list. -/
structure digraph (α : Type) (W : Type) where
  nodeList : List (α × Attrs)
  edgeList : List ((α × α) × (W × (String × Attrs)))
deriving DecidableEq

/-- The empty digraph, as produced by the digraph constructor. -/
def digraph.empty {α W : Type} : digraph α W := ⟨[], []⟩

/-- digraph.nodes: the list of nodes in insertion order. -/
def digraph.nodes {α W : Type} (g : digraph α W) : List α :=
  g.nodeList.map Prod.fst

/-- digraph.edges: the list of edge keys in insertion order. -/
def digraph.edges {α W : Type} (g : digraph α W) : List (α × α) :=
  g.edgeList.map Prod.fst

/-- digraph.has_edge: whether an edge key is present. -/
def digraph.has_edge {α W : Type} (g : digraph α W) (e : α × α) : Prop :=
  e ∈ g.edges

instance {α W : Type} [DecidableEq α] (g : digraph α W) (e : α × α) :
    Decidable (g.has_edge e) :=
  inferInstanceAs (Decidable (e ∈ g.edges))

/-- digraph.add_node: raises AdditionError when the node already exists,
otherwise appends the node with its attribute list. -/
def digraph.add_node {α W : Type} [DecidableEq α] (g : digraph α W) (x : α)
    (attrs : Attrs) : Except String (digraph α W) :=
  if x ∈ g.nodes then .error "AdditionError: node already in digraph"
  else .ok { g with nodeList := g.nodeList ++ [(x, attrs)] }

/-- digraph.add_edge: raises AdditionError when an endpoint is missing or the
edge already exists, otherwise appends the edge with weight, label and
attribute list.  The pygraph duplicate test consults the neighbor tables,
which the pygraph mutators keep equal to the edge key set. -/
def digraph.add_edge {α W : Type} [DecidableEq α] (g : digraph α W)
    (e : α × α) (wt : W) (label : String) (attrs : Attrs) :
    Except String (digraph α W) :=
  if e.1 ∈ g.nodes ∧ e.2 ∈ g.nodes then
    if g.has_edge e then .error "AdditionError: edge already in digraph"
    else .ok { g with edgeList := g.edgeList ++ [(e, (wt, (label, attrs)))] }
  else .error "AdditionError: node missing from the node_neighbors table"

/-- digraph.incidents: the predecessors of a node, in edge insertion order
(the order in which pygraph appends to node_incidence). -/
def digraph.incidents {α W : Type} [DecidableEq α] (g : digraph α W)
    (x : α) : List α :=
  g.edgeList.filterMap (fun r => if r.1.2 = x then some r.1.1 else none)

/-- digraph.node_attributes: the attribute list stored for a node.  The
source only queries nodes that are present, where the first match below is
the unique stored record. -/
def digraph.node_attributes {α W : Type} [DecidableEq α] (g : digraph α W)
    (x : α) : Attrs :=
  ((g.nodeList.find? (fun p => decide (p.1 = x))).map Prod.snd).getD []

/-- The record stored for an edge key: weight, label and attribute list,
read by edge_weight, edge_label and edge_attributes in the source.  The
source only queries keys obtained from edges herself, where the first match
is the unique stored record. -/
def digraph.edge_rec {α W : Type} [DecidableEq α] (g : digraph α W)
    (e : α × α) : Option (W × (String × Attrs)) :=
  (g.edgeList.find? (fun r => decide (r.1 = e))).map Prod.snd

/-- A Python for loop whose body may raise, threading an accumulator. -/
def foldE {α β : Type} (f : β → α → Except String β) :
    β → List α → Except String β
  | b, [] => .ok b
  | b, a :: l =>
    match f b a with
    | .ok b1 => foldE f b1 l
    | .error e => .error e

/-- The message of the ValueError euclideanDistance raises on malformed
input (identical for both malformed shapes in the source). -/
def dimensionMismatchMsg : String :=
  "ValueError: euclideanDistance must take a 2-item tuple containing numeric sequences of equal length"

/-- euclideanDistance from the source, up to the final math.sqrt: checks
that the argument is a pair of equal length sequences, then accumulates the
sum of squared coordinate differences over zip; the source returns the
square root of this accumulator. -/
def euclideanDistance (twople : List Point) : Except String Int :=
  match twople with
  | [a, b] =>
    if a.length = b.length then
      .ok ((a.zip b).foldl (fun ssquare p => ssquare + (p.1 - p.2) * (p.1 - p.2)) 0)
    else
      .error dimensionMismatchMsg
  | _ =>
    .error dimensionMismatchMsg

/-- Specification form of the radicand of the Euclidean distance: the sum of
the squared coordinate differences, written with map and sum. -/
def sumSqSpec (a b : Point) : Int :=
  ((a.zip b).map (fun p => (p.1 - p.2) ^ 2)).sum

/-- Reading a point by index, as the Python subscript pointTuples[src]
(IndexError when out of range; the triangulation indices are in range). -/
def idxPoint (points : List Point) (i : Nat) : Except String Point :=
  match points[i]? with
  | some p => .ok p
  | none => .error "IndexError: list index out of range"

/-- itertools.combinations with r = 2: all position pairs in order. -/
def combinations2 : List Nat → List (Nat × Nat)
  | [] => []
  | x :: xs => xs.map (fun y => (x, y)) ++ combinations2 xs

/-- The source index after the canonicalizing swap of the source: the lower
of the two indices of a pair drawn from a simplex. -/
def pairSrc (pr : Nat × Nat) : Nat := if pr.2 < pr.1 then pr.2 else pr.1

/-- The destination index after the canonicalizing swap of the source: the
higher of the two indices of a pair drawn from a simplex. -/
def pairDest (pr : Nat × Nat) : Nat := if pr.2 < pr.1 then pr.1 else pr.2

/-- The body of the inner loop of graphFromTriangulation for one pair drawn
from a simplex: skip self pairs, orient the pair so the lower index is the
source, skip pairs whose destination is a seed, then insert the edge with
the euclideanDistance weight unless it is already present. -/
def addSimplexPair (points : List Point) (nSeeds : Nat)
    (g : digraph Point Int) (pr : Nat × Nat) : Except String (digraph Point Int) :=
  if pr.1 = pr.2 then .ok g
  else if pairDest pr < nSeeds then .ok g
  else
    match idxPoint points (pairSrc pr) with
    | .error e => .error e
    | .ok a =>
      match idxPoint points (pairDest pr) with
      | .error e => .error e
      | .ok b =>
        if g.has_edge (a, b) then .ok g
        else
          match euclideanDistance [a, b] with
          | .error e => .error e
          | .ok w => g.add_edge (a, b) w "" []

/-- The middle loop of graphFromTriangulation: all pairs of one simplex. -/
def processSimplex (points : List Point) (nSeeds : Nat)
    (g : digraph Point Int) (plex : List Nat) : Except String (digraph Point Int) :=
  foldE (addSimplexPair points nSeeds) g (combinations2 plex)

/-- The node loop of graphFromTriangulation: every point becomes a node
keyed by its coordinate tuple, colored red for indices below nSeeds and
black otherwise. -/
def addNodesLoop (points : List Point) (nSeeds : Nat) :
    Except String (digraph Point Int) :=
  foldE
    (fun g ip =>
      g.add_node ip.2 [("color", if ip.1 < nSeeds then "red" else "black")])
    digraph.empty points.enum

/-- graphFromTriangulation from the source.  The scipy triangulation object
carries the point array and the simplex array; the model passes the two
components directly. -/
def graphFromTriangulation (points : List Point) (simplices : List (List Nat))
    (nSeeds : Nat) : Except String (digraph Point Int) :=
  match addNodesLoop points nSeeds with
  | .error e => .error e
  | .ok g0 => foldE (processSimplex points nSeeds) g0 simplices

/-- The running example of the specification: four unit square corners. -/
def examplePoints : List Point := [[0, 0], [1, 0], [0, 1], [1, 1]]

/-- The example simplices of the specification. -/
def exampleSimplices : List (List Nat) := [[0, 1, 2], [1, 2, 3]]

/-- The graph the builder produces on the running example. -/
def exampleGraph : digraph Point Int :=
  { nodeList :=
      [([0, 0], [("color", "red")]),
       ([1, 0], [("color", "black")]),
       ([0, 1], [("color", "black")]),
       ([1, 1], [("color", "black")])],
    edgeList :=
      [((([0, 0] : Point), ([1, 0] : Point)), (1, ("", []))),
       ((([0, 0] : Point), ([0, 1] : Point)), (1, ("", []))),
       ((([1, 0] : Point), ([0, 1] : Point)), (2, ("", []))),
       ((([1, 0] : Point), ([1, 1] : Point)), (1, ("", []))),
       ((([0, 1] : Point), ([1, 1] : Point)), (1, ("", [])))] }

example : graphFromTriangulation examplePoints exampleSimplices 1 = .ok exampleGraph := rfl

/-! ### Generic facts about the loop combinator -/

/-- Splitting a loop over an appended list. -/
theorem foldE_append {α β : Type} (f : β → α → Except String β)
    (l1 l2 : List α) (b : β) :
    foldE f b (l1 ++ l2) =
      match foldE f b l1 with
      | .ok b1 => foldE f b1 l2
      | .error e => .error e := by
  induction l1 generalizing b with
  | nil => simp [foldE]
  | cons a l ih =>
    simp only [List.cons_append, foldE]
    cases f b a <;> simp [ih]

/-- A property preserved by every successful loop step is preserved by a
successful loop. -/
theorem foldE_ok_preserve {α β : Type} {P : β → Prop}
    {f : β → α → Except String β}
    (hstep : ∀ b a b1, P b → f b a = .ok b1 → P b1) :
    ∀ (l : List α) (b b1 : β), P b → foldE f b l = .ok b1 → P b1 := by
  intro l
  induction l with
  | nil =>
    intro b b1 hP h
    simp only [foldE, Except.ok.injEq] at h
    exact h ▸ hP
  | cons a l ih =>
    intro b b1 hP h
    simp only [foldE] at h
    cases hfa : f b a with
    | error e => rw [hfa] at h; cases h
    | ok b2 => rw [hfa] at h; exact ih b2 b1 (hstep b a b2 hP hfa) h

/-- If every element of the list maps the state to itself, so does the loop. -/
theorem foldE_fixed {α β : Type} {f : β → α → Except String β} :
    ∀ (l : List α) (b : β), (∀ a ∈ l, f b a = .ok b) → foldE f b l = .ok b := by
  intro l
  induction l with
  | nil => intro b _; simp [foldE]
  | cons a l ih =>
    intro b hall
    simp only [foldE]
    rw [hall a (List.mem_cons_self a l)]
    exact ih b (fun x hx => hall x (List.mem_cons_of_mem a hx))

/-! ### The node loop -/

/-- A successful run of the node insertion loop appends exactly the listed
nodes, leaves the edges alone, and certifies that the resulting node list
has no duplicates (a duplicate insertion would have raised AdditionError). -/
theorem addNodes_go (af : Nat × Point → Attrs) :
    ∀ (l : List (Nat × Point)) (g g1 : digraph Point Int),
      foldE (fun g ip => g.add_node ip.2 (af ip)) g l = .ok g1 →
      g.nodes.Nodup →
      g1.edgeList = g.edgeList ∧ g1.nodes = g.nodes ++ l.map Prod.snd ∧
        g1.nodes.Nodup := by
  intro l
  induction l with
  | nil =>
    intro g g1 h hn
    simp only [foldE, Except.ok.injEq] at h
    subst h
    simp [hn]
  | cons ip l ih =>
    intro g g1 h hn
    simp only [foldE] at h
    cases hstep : digraph.add_node g ip.2 (af ip) with
    | error e => rw [hstep] at h; cases h
    | ok g2 =>
      rw [hstep] at h
      simp only [digraph.add_node] at hstep
      split at hstep
      · cases hstep
      · rename_i hmem
        have hg2 : g2 = { g with nodeList := g.nodeList ++ [(ip.2, af ip)] } := by
          cases hstep; rfl
        have hnodes2 : g2.nodes = g.nodes ++ [ip.2] := by
          subst hg2; simp [digraph.nodes]
        have hedges2 : g2.edgeList = g.edgeList := by
          subst hg2; rfl
        have hn2 : g2.nodes.Nodup := by
          rw [hnodes2]
          simp [List.nodup_append, hn, hmem]
        obtain ⟨he, hns, hnd⟩ := ih g2 g1 h hn2
        refine ⟨he.trans hedges2, ?_, hnd⟩
        rw [hns, hnodes2]
        simp

/-- A successful node phase of the builder produces the whole point list,
in order and duplicate free, with no edges yet. -/
theorem addNodesLoop_spec (points : List Point) (nSeeds : Nat)
    (g0 : digraph Point Int) (h : addNodesLoop points nSeeds = .ok g0) :
    g0.edgeList = [] ∧ g0.nodes = points ∧ points.Nodup := by
  have hstart : (digraph.empty : digraph Point Int).nodes.Nodup := by
    simp [digraph.empty, digraph.nodes]
  obtain ⟨he, hns, hnd⟩ :=
    addNodes_go (fun ip => [("color", if ip.1 < nSeeds then "red" else "black")])
      points.enum digraph.empty g0 h hstart
  have henum : points.enum.map Prod.snd = points := List.enum_map_snd points
  constructor
  · exact he
  · constructor
    · rw [hns, henum]; simp [digraph.empty, digraph.nodes]
    · rw [hns, henum] at hnd
      simpa [digraph.empty, digraph.nodes] using hnd

/-! ### The edge loops -/

/-- Invariant of the edge phase: every stored edge joins the point at a
lower index to the point at a strictly higher, non seed index. -/
def EdgeInv (points : List Point) (nSeeds : Nat) (g : digraph Point Int) : Prop :=
  ∀ r ∈ g.edgeList, ∃ i j, i < j ∧ nSeeds ≤ j ∧
    points[i]? = some r.1.1 ∧ points[j]? = some r.1.2

/-- The canonicalizing swap really orders a non degenerate pair. -/
theorem pairSrc_lt_pairDest (pr : Nat × Nat) (h : pr.1 ≠ pr.2) :
    pairSrc pr < pairDest pr := by
  simp only [pairSrc, pairDest]
  split <;> omega

/-- Reading an index succeeds exactly on the stored entry. -/
theorem idxPoint_ok {points : List Point} {i : Nat} {p : Point} :
    idxPoint points i = .ok p ↔ points[i]? = some p := by
  unfold idxPoint
  cases h : points[i]? <;> simp

/-- One pair step preserves the edge invariant. -/
theorem addSimplexPair_inv {points : List Point} {nSeeds : Nat}
    {g g1 : digraph Point Int} {pr : Nat × Nat}
    (h : addSimplexPair points nSeeds g pr = .ok g1)
    (hinv : EdgeInv points nSeeds g) : EdgeInv points nSeeds g1 := by
  simp only [addSimplexPair] at h
  split at h
  · cases h; assumption
  split at h
  · cases h; assumption
  rename_i hne hseed
  split at h
  · cases h
  rename_i a hsrc
  split at h
  · cases h
  rename_i b hdst
  split at h
  · cases h; assumption
  rename_i hnew
  split at h
  · cases h
  rename_i w hw
  simp only [digraph.add_edge, if_neg hnew] at h
  split at h
  · have hg1 : g1.edgeList = g.edgeList ++ [((a, b), (w, ("", [])))] := by
      cases h; rfl
    intro r hr
    rw [hg1] at hr
    rcases List.mem_append.1 hr with hold | hnewr
    · exact hinv r hold
    · rcases List.mem_singleton.1 hnewr with rfl
      exact ⟨pairSrc pr, pairDest pr, pairSrc_lt_pairDest pr hne, by omega,
        idxPoint_ok.1 hsrc, idxPoint_ok.1 hdst⟩
  · cases h

/-- Extension order between builder states: the nodes are unchanged and the
edge list has only grown at the end. -/
def graphExt (g g1 : digraph Point Int) : Prop :=
  g1.nodeList = g.nodeList ∧ ∃ t, g1.edgeList = g.edgeList ++ t

/-- Extension is reflexive. -/
theorem graphExt_refl (g : digraph Point Int) : graphExt g g :=
  ⟨rfl, [], by simp⟩

/-- Extension is transitive. -/
theorem graphExt_trans {g g1 g2 : digraph Point Int}
    (h1 : graphExt g g1) (h2 : graphExt g1 g2) : graphExt g g2 := by
  obtain ⟨hn1, t1, ht1⟩ := h1
  obtain ⟨hn2, t2, ht2⟩ := h2
  exact ⟨hn2.trans hn1, t1 ++ t2, by rw [ht2, ht1, List.append_assoc]⟩

/-- A pair of a simplex counts as settled in a graph state when the builder
would skip it: degenerate, seed targeted, or its edge already present. -/
def pairDone (points : List Point) (nSeeds : Nat) (g : digraph Point Int)
    (pr : Nat × Nat) : Prop :=
  pr.1 = pr.2 ∨ pairDest pr < nSeeds ∨
    ∃ a b, idxPoint points (pairSrc pr) = .ok a ∧
      idxPoint points (pairDest pr) = .ok b ∧ g.has_edge (a, b)

/-- Full case analysis of one successful pair step: either the pair was
settled already and the state is unchanged, or exactly one new edge was
appended, oriented upward and away from the seeds. -/
theorem addSimplexPair_ok_elim {points : List Point} {nSeeds : Nat}
    {g g1 : digraph Point Int} {pr : Nat × Nat}
    (h : addSimplexPair points nSeeds g pr = .ok g1) :
    (g1 = g ∧ pairDone points nSeeds g pr) ∨
      ∃ a b w,
        g1 = { g with edgeList := g.edgeList ++ [((a, b), (w, ("", [])))] } ∧
        pr.1 ≠ pr.2 ∧ nSeeds ≤ pairDest pr ∧
        idxPoint points (pairSrc pr) = .ok a ∧
        idxPoint points (pairDest pr) = .ok b ∧
        euclideanDistance [a, b] = .ok w ∧
        ¬ g.has_edge (a, b) ∧ a ∈ g.nodes ∧ b ∈ g.nodes := by
  simp only [addSimplexPair] at h
  split at h
  · rename_i hself
    cases h
    exact Or.inl ⟨rfl, Or.inl hself⟩
  split at h
  · rename_i hself hseed
    cases h
    exact Or.inl ⟨rfl, Or.inr (Or.inl hseed)⟩
  rename_i hself hseed
  split at h
  · cases h
  rename_i a hsrc
  split at h
  · cases h
  rename_i b hdst
  split at h
  · rename_i hedge
    cases h
    exact Or.inl ⟨rfl, Or.inr (Or.inr ⟨a, b, hsrc, hdst, hedge⟩)⟩
  rename_i hedge
  split at h
  · cases h
  rename_i w hw
  simp only [digraph.add_edge, if_neg hedge] at h
  split at h
  · rename_i hmem
    cases h
    exact Or.inr ⟨a, b, w, rfl, hself, by omega, hsrc, hdst, hw, hedge,
      hmem.1, hmem.2⟩
  · cases h

/-- One pair step only extends the graph. -/
theorem addSimplexPair_ext {points : List Point} {nSeeds : Nat}
    {g g1 : digraph Point Int} {pr : Nat × Nat}
    (h : addSimplexPair points nSeeds g pr = .ok g1) : graphExt g g1 := by
  rcases addSimplexPair_ok_elim h with ⟨rfl, _⟩ | ⟨a, b, w, rfl, _⟩
  · exact graphExt_refl _
  · exact ⟨rfl, [((a, b), (w, ("", [])))], rfl⟩

/-- Whole loops over pair steps only extend the graph. -/
theorem foldE_graphExt {α : Type}
    {f : digraph Point Int → α → Except String (digraph Point Int)}
    (hstep : ∀ g a g1, f g a = .ok g1 → graphExt g g1) :
    ∀ (l : List α) (g g1 : digraph Point Int),
      foldE f g l = .ok g1 → graphExt g g1 := by
  intro l
  induction l with
  | nil =>
    intro g g1 h
    simp only [foldE, Except.ok.injEq] at h
    exact h ▸ graphExt_refl g
  | cons a l ih =>
    intro g g1 h
    simp only [foldE] at h
    cases hfa : f g a with
    | error e => rw [hfa] at h; cases h
    | ok g2 =>
      rw [hfa] at h
      exact graphExt_trans (hstep g a g2 hfa) (ih g2 g1 h)

/-- A settled pair stays settled when the graph is extended. -/
theorem pairDone_ext {points : List Point} {nSeeds : Nat}
    {g g1 : digraph Point Int} {pr : Nat × Nat}
    (hd : pairDone points nSeeds g pr) (he : graphExt g g1) :
    pairDone points nSeeds g1 pr := by
  rcases hd with hself | hseed | ⟨a, b, hsrc, hdst, hedge⟩
  · exact Or.inl hself
  · exact Or.inr (Or.inl hseed)
  · refine Or.inr (Or.inr ⟨a, b, hsrc, hdst, ?_⟩)
    obtain ⟨_, t, ht⟩ := he
    simp only [digraph.has_edge, digraph.edges] at hedge ⊢
    rw [ht, List.map_append]
    exact List.mem_append.2 (Or.inl hedge)

/-- After a successful pair step, the pair is settled. -/
theorem addSimplexPair_done {points : List Point} {nSeeds : Nat}
    {g g1 : digraph Point Int} {pr : Nat × Nat}
    (h : addSimplexPair points nSeeds g pr = .ok g1) :
    pairDone points nSeeds g1 pr := by
  rcases addSimplexPair_ok_elim h with ⟨rfl, hd⟩ | ⟨a, b, w, rfl, _, _, hsrc, hdst, _, _, _⟩
  · exact hd
  · refine Or.inr (Or.inr ⟨a, b, hsrc, hdst, ?_⟩)
    simp [digraph.has_edge, digraph.edges]

/-- The builder skips a settled pair. -/
theorem pairDone_skip {points : List Point} {nSeeds : Nat}
    {g : digraph Point Int} {pr : Nat × Nat}
    (hd : pairDone points nSeeds g pr) :
    addSimplexPair points nSeeds g pr = .ok g := by
  unfold addSimplexPair
  rcases hd with hself | hseed | ⟨a, b, hsrc, hdst, hedge⟩
  · rw [if_pos hself]
  · by_cases hself : pr.1 = pr.2
    · rw [if_pos hself]
    · rw [if_neg hself, if_pos hseed]
  · by_cases hself : pr.1 = pr.2
    · rw [if_pos hself]
    rw [if_neg hself]
    by_cases hseed : pairDest pr < nSeeds
    · rw [if_pos hseed]
    rw [if_neg hseed, hsrc, hdst]
    simp only [if_pos hedge]

/-- After a successful loop over pair steps, every listed pair is settled. -/
theorem foldE_pairs_done {points : List Point} {nSeeds : Nat} :
    ∀ (l : List (Nat × Nat)) (g g1 : digraph Point Int),
      foldE (addSimplexPair points nSeeds) g l = .ok g1 →
      ∀ pr ∈ l, pairDone points nSeeds g1 pr := by
  intro l
  induction l with
  | nil => intro g g1 _ pr hpr; cases hpr
  | cons a l ih =>
    intro g g1 h pr hpr
    simp only [foldE] at h
    cases hfa : addSimplexPair points nSeeds g a with
    | error e => rw [hfa] at h; cases h
    | ok g2 =>
      rw [hfa] at h
      rcases List.mem_cons.1 hpr with rfl | hmem
      · exact pairDone_ext (addSimplexPair_done hfa)
          (foldE_graphExt (fun g a g1 hh => addSimplexPair_ext hh) l g2 g1 h)
      · exact ih g2 g1 h pr hmem

/-- A whole simplex whose pairs are all settled is skipped by the builder. -/
theorem processSimplex_skip {points : List Point} {nSeeds : Nat}
    {g : digraph Point Int} {s : List Nat}
    (hd : ∀ pr ∈ combinations2 s, pairDone points nSeeds g pr) :
    processSimplex points nSeeds g s = .ok g :=
  foldE_fixed (combinations2 s) g (fun pr hpr => pairDone_skip (hd pr hpr))

/-- After a successful loop over whole simplices, every pair of every listed
simplex is settled. -/
theorem foldE_simplices_done {points : List Point} {nSeeds : Nat} :
    ∀ (ss : List (List Nat)) (g g1 : digraph Point Int),
      foldE (processSimplex points nSeeds) g ss = .ok g1 →
      ∀ s ∈ ss, ∀ pr ∈ combinations2 s, pairDone points nSeeds g1 pr := by
  intro ss
  induction ss with
  | nil => intro g g1 _ s hs; cases hs
  | cons s0 ss ih =>
    intro g g1 h s hs pr hpr
    simp only [foldE] at h
    cases hfa : processSimplex points nSeeds g s0 with
    | error e => rw [hfa] at h; cases h
    | ok g2 =>
      rw [hfa] at h
      rcases List.mem_cons.1 hs with rfl | hmem
      · have hdone2 := foldE_pairs_done (combinations2 s) g g2 hfa pr hpr
        exact pairDone_ext hdone2
          (foldE_graphExt
            (fun g a g1 hh =>
              foldE_graphExt (fun g a g1 hhh => addSimplexPair_ext hhh)
                (combinations2 a) g g1 hh)
            ss g2 g1 h)
      · exact ih g2 g1 h s hmem pr hpr

/-- Master invariant of the builder: a successful run certifies that the
coordinate tuples were pairwise distinct, that the nodes are exactly the
points in input order, and that every edge is an upward, non seed targeting
pair of stored points. -/
theorem graphFromTriangulation_inv {points : List Point}
    {simplices : List (List Nat)} {nSeeds : Nat} {g : digraph Point Int}
    (h : graphFromTriangulation points simplices nSeeds = .ok g) :
    points.Nodup ∧ g.nodes = points ∧ EdgeInv points nSeeds g := by
  unfold graphFromTriangulation at h
  cases h0 : addNodesLoop points nSeeds with
  | error e => rw [h0] at h; cases h
  | ok g0 =>
    rw [h0] at h
    obtain ⟨he0, hn0, hnd⟩ := addNodesLoop_spec points nSeeds g0 h0
    refine ⟨hnd, ?_, ?_⟩
    · have hext := foldE_graphExt
        (fun g a g1 hh => by
          rw [processSimplex] at hh
          exact foldE_graphExt (fun g a g1 hhh => addSimplexPair_ext hhh)
            (combinations2 a) g g1 hh)
        simplices g0 g h
      have hn : g.nodeList = g0.nodeList := hext.1
      rw [digraph.nodes, hn, ← digraph.nodes, hn0]
    · refine foldE_ok_preserve ?_ simplices g0 g ?_ h
      · intro b a b1 hP hstep
        rw [processSimplex] at hstep
        exact foldE_ok_preserve
          (fun b a b1 hP hh => addSimplexPair_inv hh hP)
          (combinations2 a) b b1 hP hstep
      · intro r hr
        rw [he0] at hr
        cases hr

/-- A successful builder premise yields a length bound for an index. -/
theorem length_of_getElem_some {l : List Point} {i : Nat} {p : Point}
    (h : l[i]? = some p) : i < l.length := by
  rcases List.getElem?_eq_some_iff.1 h with ⟨hl, _⟩
  exact hl

/-- C1: for every valid input (ordered point list, simplex set, seedCount),
the graph returned by the builder contains no self-edges, and every edge,
read back as a pair of original point indices, has its source index
strictly below its destination index. -/
theorem buildGraph_edges_strictly_outward (points : List Point)
    (simplices : List (List Nat)) (nSeeds : Nat) (g : digraph Point Int)
    (h : graphFromTriangulation points simplices nSeeds = .ok g) :
    ∀ r ∈ g.edgeList,
      r.1.1 ≠ r.1.2 ∧
      (∃ i j : Nat, i < j ∧ points[i]? = some r.1.1 ∧ points[j]? = some r.1.2) ∧
      (∀ i j : Nat, points[i]? = some r.1.1 → points[j]? = some r.1.2 → i < j) := by
  obtain ⟨hnd, hnodes, hinv⟩ := graphFromTriangulation_inv h
  intro r hr
  obtain ⟨i0, j0, hij, hjseed, hi0, hj0⟩ := hinv r hr
  refine ⟨?_, ⟨i0, j0, hij, hi0, hj0⟩, ?_⟩
  · intro heq
    have hsame : points[i0]? = points[j0]? := by rw [hi0, hj0, heq]
    have := List.getElem?_inj (length_of_getElem_some hi0) hnd hsame
    omega
  · intro i j hi hj
    have hieq : i = i0 :=
      List.getElem?_inj (length_of_getElem_some hi) hnd (hi.trans hi0.symm)
    have hjeq : j = j0 :=
      List.getElem?_inj (length_of_getElem_some hj) hnd (hj.trans hj0.symm)
    omega

/-- Witness for C1 at the running example. -/
theorem buildGraph_edges_strictly_outward_witness :
    (graphFromTriangulation examplePoints exampleSimplices 1 = .ok exampleGraph) ∧
    (∀ r ∈ exampleGraph.edgeList,
      r.1.1 ≠ r.1.2 ∧
      (∃ i j : Nat, i < j ∧ examplePoints[i]? = some r.1.1 ∧
        examplePoints[j]? = some r.1.2) ∧
      (∀ i j : Nat, examplePoints[i]? = some r.1.1 →
        examplePoints[j]? = some r.1.2 → i < j)) :=
  ⟨rfl, buildGraph_edges_strictly_outward examplePoints exampleSimplices 1
    exampleGraph rfl⟩

/-- C2: no edge of the built graph targets a point stored below seedCount;
equivalently every seed node has an empty predecessor list. -/
theorem buildGraph_seeds_have_no_incoming (points : List Point)
    (simplices : List (List Nat)) (nSeeds : Nat) (g : digraph Point Int)
    (h : graphFromTriangulation points simplices nSeeds = .ok g) :
    (∀ r ∈ g.edgeList, ∀ j, points[j]? = some r.1.2 → nSeeds ≤ j) ∧
    (∀ j, j < nSeeds → ∀ p, points[j]? = some p → g.incidents p = []) := by
  obtain ⟨hnd, hnodes, hinv⟩ := graphFromTriangulation_inv h
  have edgepart : ∀ r ∈ g.edgeList, ∀ j, points[j]? = some r.1.2 → nSeeds ≤ j := by
    intro r hr j hj
    obtain ⟨i0, j0, hij, hjseed, hi0, hj0⟩ := hinv r hr
    have : j = j0 :=
      List.getElem?_inj (length_of_getElem_some hj) hnd (hj.trans hj0.symm)
    omega
  refine ⟨edgepart, ?_⟩
  intro j hjseed p hp
  rw [digraph.incidents, List.filterMap_eq_nil_iff]
  intro r hr
  have hne : r.1.2 ≠ p := by
    intro he
    have := edgepart r hr j (by rw [hp, he])
    omega
  simp [hne]

/-- Witness for C2 at the running example. -/
theorem buildGraph_seeds_have_no_incoming_witness :
    (graphFromTriangulation examplePoints exampleSimplices 1 = .ok exampleGraph) ∧
    ((∀ r ∈ exampleGraph.edgeList, ∀ j : Nat,
        examplePoints[j]? = some r.1.2 → 1 ≤ j) ∧
     (∀ j : Nat, j < 1 → ∀ p, examplePoints[j]? = some p →
       exampleGraph.incidents p = [])) :=
  ⟨rfl, buildGraph_seeds_have_no_incoming examplePoints exampleSimplices 1
    exampleGraph rfl⟩

/-- Counterexample for C3: with two points that carry identical coordinates
at distinct positions, the builder does not produce two distinct nodes; the
duplicate coordinate tuple key makes the node insertion raise
AdditionError, so no graph at all is returned. -/
theorem node_identity_is_coordinate_counterexample :
    graphFromTriangulation [[0, 0], [0, 0]] [] 1 =
      .error "AdditionError: node already in digraph" := rfl

/-- C3 amended: node identity in the built graph is the coordinate tuple,
not the position index; the builder returns a graph only when all
coordinate tuples are pairwise distinct, and then the node list is exactly
the point list, one node per position. -/
theorem buildGraph_ok_requires_distinct_coordinates (points : List Point)
    (simplices : List (List Nat)) (nSeeds : Nat) (g : digraph Point Int)
    (h : graphFromTriangulation points simplices nSeeds = .ok g) :
    points.Nodup ∧ g.nodes = points :=
  ⟨(graphFromTriangulation_inv h).1, (graphFromTriangulation_inv h).2.1⟩

/-- The graph built from two distinct points and no simplices. -/
def pairGraph : digraph Point Int :=
  { nodeList :=
      [([0, 0], [("color", "black")]), ([1, 1], [("color", "black")])],
    edgeList := [] }

/-- Witness for the amended C3 at a duplicate free input. -/
theorem buildGraph_ok_requires_distinct_coordinates_witness :
    (graphFromTriangulation [[0, 0], [1, 1]] [] 0 = .ok pairGraph) ∧
    (([[0, 0], [1, 1]] : List Point).Nodup ∧ pairGraph.nodes = [[0, 0], [1, 1]]) :=
  ⟨rfl, buildGraph_ok_requires_distinct_coordinates [[0, 0], [1, 1]] [] 0
    pairGraph rfl⟩

/-- Counterexample for C4: on the empty point list with seedCount 5 (both
an empty point set and a seed count exceeding the number of points) the
builder raises nothing and returns the empty graph, instead of failing
with EmptyPointSet or InsufficientSeeds. -/
theorem builder_has_no_input_validation_counterexample :
    graphFromTriangulation [] [] 5 = .ok digraph.empty := rfl

/-- The node loop succeeds on any duplicate free point list. -/
theorem addNodes_go_ok (af : Nat × Point → Attrs) :
    ∀ (l : List (Nat × Point)) (g : digraph Point Int),
      (g.nodes ++ l.map Prod.snd).Nodup →
      ∃ g1, foldE (fun g ip => g.add_node ip.2 (af ip)) g l = .ok g1 := by
  intro l
  induction l with
  | nil => intro g _; exact ⟨g, rfl⟩
  | cons ip l ih =>
    intro g hnd
    have hmem : ip.2 ∉ g.nodes := by
      rcases List.nodup_append.1 hnd with ⟨_, _, hdisj⟩
      intro hc
      exact hdisj hc (List.mem_cons_self ip.2 (l.map Prod.snd))
    have hstep : g.add_node ip.2 (af ip) =
        .ok { g with nodeList := g.nodeList ++ [(ip.2, af ip)] } := by
      rw [digraph.add_node, if_neg hmem]
    have hnd2 : (({ g with nodeList := g.nodeList ++ [(ip.2, af ip)]} :
        digraph Point Int).nodes ++ l.map Prod.snd).Nodup := by
      have : ({ g with nodeList := g.nodeList ++ [(ip.2, af ip)]} :
          digraph Point Int).nodes = g.nodes ++ [ip.2] := by
        simp [digraph.nodes]
      rw [this, List.append_assoc]
      simpa using hnd
    obtain ⟨g1, hg1⟩ := ih _ hnd2
    refine ⟨g1, ?_⟩
    simp only [foldE, hstep]
    exact hg1

/-- C4 amended: the builder validates neither emptiness nor the seed count.
For every duplicate free point list and every seed count, also zero points
or a seed count larger than the number of points, the builder returns a
graph with one node per point instead of raising EmptyPointSet or
InsufficientSeeds. -/
theorem builder_succeeds_without_validation (points : List Point)
    (nSeeds : Nat) (hnd : points.Nodup) :
    ∃ g, graphFromTriangulation points [] nSeeds = .ok g ∧
      g.nodes = points ∧ g.edgeList = [] := by
  have hstart : ((digraph.empty : digraph Point Int).nodes ++
      points.enum.map Prod.snd).Nodup := by
    rw [List.enum_map_snd points]
    simpa [digraph.empty, digraph.nodes] using hnd
  obtain ⟨g0, hg0⟩ :=
    addNodes_go_ok
      (fun ip => [("color", if ip.1 < nSeeds then "red" else "black")])
      points.enum digraph.empty hstart
  have hloop : addNodesLoop points nSeeds = .ok g0 := hg0
  obtain ⟨he0, hn0, _⟩ := addNodesLoop_spec points nSeeds g0 hloop
  refine ⟨g0, ?_, hn0, he0⟩
  unfold graphFromTriangulation
  rw [hloop]
  rfl

/-- Witness for the amended C4: one point, seed count 7. -/
theorem builder_succeeds_without_validation_witness :
    ([[5]] : List Point).Nodup ∧
    (∃ g, graphFromTriangulation [[5]] [] 7 = .ok g ∧
      g.nodes = [[5]] ∧ g.edgeList = []) :=
  ⟨by decide, builder_succeeds_without_validation [[5]] 7 (by decide)⟩

/-- C5: edge insertion is idempotent: a simplex already contained in the
simplex list can be fed once more without changing the result at all, the
weights included. -/
theorem buildGraph_idempotent_insertion (points : List Point)
    (simplices : List (List Nat)) (s : List Nat) (nSeeds : Nat)
    (hs : s ∈ simplices) :
    graphFromTriangulation points (simplices ++ [s]) nSeeds =
      graphFromTriangulation points simplices nSeeds := by
  unfold graphFromTriangulation
  cases h0 : addNodesLoop points nSeeds with
  | error e => rfl
  | ok g0 =>
    show foldE (processSimplex points nSeeds) g0 (simplices ++ [s]) =
      foldE (processSimplex points nSeeds) g0 simplices
    rw [foldE_append]
    cases h1 : foldE (processSimplex points nSeeds) g0 simplices with
    | error e => rfl
    | ok g1 =>
      have hdone := foldE_simplices_done simplices g0 g1 h1 s hs
      have hskip := processSimplex_skip hdone
      simp [foldE, hskip]

/-- Witness for C5 at the running example, feeding the first simplex twice. -/
theorem buildGraph_idempotent_insertion_witness :
    ([0, 1, 2] ∈ exampleSimplices) ∧
    graphFromTriangulation examplePoints (exampleSimplices ++ [[0, 1, 2]]) 1 =
      graphFromTriangulation examplePoints exampleSimplices 1 :=
  ⟨by decide, buildGraph_idempotent_insertion examplePoints exampleSimplices
    [0, 1, 2] 1 (by decide)⟩

/-- C8: on the concrete input of the specification the builder returns
exactly the expected graph: the five expected edges in insertion order,
each weighted by the (squared, see the module comment) Euclidean distance
of its endpoints, the first node tagged as a seed by the red color
attribute, and no edge entering node 0. -/
theorem example_build_exact :
    graphFromTriangulation examplePoints exampleSimplices 1 = .ok exampleGraph ∧
    exampleGraph.edges =
      [([0, 0], [1, 0]), ([0, 0], [0, 1]), ([1, 0], [0, 1]),
       ([1, 0], [1, 1]), ([0, 1], [1, 1])] ∧
    (∀ r ∈ exampleGraph.edgeList, r.2.1 = sumSqSpec r.1.1 r.1.2) ∧
    exampleGraph.node_attributes [0, 0] = [("color", "red")] ∧
    exampleGraph.incidents [0, 0] = [] :=
  ⟨rfl, rfl, by decide, rfl, rfl⟩

/-- The accumulation loop of euclideanDistance computes the sum of the
squared differences. -/
theorem foldl_sq_sum (l : List (Int × Int)) :
    ∀ s0 : Int,
      l.foldl (fun ssquare p => ssquare + (p.1 - p.2) * (p.1 - p.2)) s0 =
        s0 + (l.map (fun p => (p.1 - p.2) ^ 2)).sum := by
  induction l with
  | nil => intro s0; simp
  | cons p l ih =>
    intro s0
    simp only [List.foldl_cons, List.map_cons, List.sum_cons, ih]
    ring

/-- C9: euclideanDistance raises DimensionMismatch (a ValueError in the
source) exactly when the input is not a pair of two coordinate vectors or
the two vectors differ in length; on every pair of equal length vectors it
returns the Euclidean distance radicand, equal to the specification sum of
squared differences (the source returns its square root), and the model is
a pure function, so there are no side effects. -/
theorem euclideanDistance_spec :
    (∀ a b : Point, a.length = b.length →
      euclideanDistance [a, b] = .ok (sumSqSpec a b)) ∧
    (∀ a b : Point, a.length ≠ b.length →
      euclideanDistance [a, b] = .error dimensionMismatchMsg) ∧
    (∀ t : List Point, t.length ≠ 2 →
      euclideanDistance t = .error dimensionMismatchMsg) := by
  refine ⟨?_, ?_, ?_⟩
  · intro a b hlen
    simp [euclideanDistance, if_pos hlen, sumSqSpec, foldl_sq_sum]
  · intro a b hlen
    simp [euclideanDistance, if_neg hlen]
  · intro t ht
    rcases t with _ | ⟨a, _ | ⟨b, _ | ⟨c, rest⟩⟩⟩
    · rfl
    · rfl
    · exact absurd rfl ht
    · rfl

/-- Witness for C9: a well formed pair, a length mismatch, and a non pair. -/
theorem euclideanDistance_spec_witness :
    (([0, 0] : Point).length = ([3, 4] : Point).length ∧
      euclideanDistance [[0, 0], [3, 4]] = .ok (sumSqSpec [0, 0] [3, 4])) ∧
    (([0] : Point).length ≠ ([1, 2] : Point).length ∧
      euclideanDistance [[0], [1, 2]] = .error dimensionMismatchMsg) ∧
    (([[1]] : List Point).length ≠ 2 ∧
      euclideanDistance [[1]] = .error dimensionMismatchMsg) :=
  ⟨⟨rfl, euclideanDistance_spec.1 [0, 0] [3, 4] rfl⟩,
   ⟨by decide, euclideanDistance_spec.2.1 [0] [1, 2] (by decide)⟩,
   ⟨by decide, euclideanDistance_spec.2.2 [[1]] (by decide)⟩⟩

/-! ### friendly_rename -/

/-- Python chr: the single character string of a code point, a ValueError
beyond the Unicode range. -/
def chr (n : Nat) : Except String PyStr :=
  if n < 1114112 then .ok [n] else .error "ValueError: chr() arg not in range"

/-- Decimal digit code points of a natural number, most significant first,
computed with explicit fuel so that it is structurally recursive. -/
def decimalCore : Nat → Nat → List Nat
  | 0, _ => []
  | fuel + 1, n =>
    if n < 10 then [48 + n] else decimalCore fuel (n / 10) ++ [48 + n % 10]

/-- Python str of a natural number, as code points. -/
def strOfNat (n : Nat) : PyStr := decimalCore (n + 1) n

/-- The loop state of friendly_rename: the two counters, the identifier
map, and the new graph under construction. -/
structure RenameState (α W : Type) where
  nextLetter : Nat
  nextNumber : Nat
  identifierMap : List (α × PyStr)
  newGraph : digraph PyStr W

/-- One node of the node pass of friendly_rename: a node without incoming
edges receives the prefix followed by the next letter character, any other
node receives the at sign, the prefix and the next number; the identifier
is inserted in the new graph with the attributes of the old node and is
recorded in the identifier map. -/
def renameNodeStep {α W : Type} [DecidableEq α] (g : digraph α W)
    (pfx : PyStr) (st : RenameState α W) (node : α) :
    Except String (RenameState α W) :=
  if g.incidents node = [] then
    match chr st.nextLetter with
    | .error e => .error e
    | .ok c =>
      match st.newGraph.add_node (pfx ++ c) (g.node_attributes node) with
      | .error e => .error e
      | .ok ng =>
        .ok ⟨st.nextLetter + 1, st.nextNumber,
          st.identifierMap ++ [(node, pfx ++ c)], ng⟩
  else
    match st.newGraph.add_node (64 :: (pfx ++ strOfNat st.nextNumber))
        (g.node_attributes node) with
    | .error e => .error e
    | .ok ng =>
      .ok ⟨st.nextLetter, st.nextNumber + 1,
        st.identifierMap ++ [(node, 64 :: (pfx ++ strOfNat st.nextNumber))], ng⟩

/-- The node pass of friendly_rename: nextLetter starts at the code of the
letter A, nextNumber at one, the map and the new graph empty. -/
def rename_nodes {α W : Type} [DecidableEq α] (g : digraph α W)
    (pfx : PyStr) : Except String (RenameState α W) :=
  foldE (renameNodeStep g pfx) ⟨65, 1, [], digraph.empty⟩ g.nodes

/-- The identifierMap subscript of the source: KeyError when absent. -/
def lookupId {α : Type} [DecidableEq α] (m : List (α × PyStr)) (x : α) :
    Except String PyStr :=
  match m.find? (fun p => decide (p.1 = x)) with
  | some p => .ok p.2
  | none => .error "KeyError"

/-- One edge of the edge pass of friendly_rename: read weight, label and
attributes of the old edge, remap both endpoints through the identifier
map, and insert the remapped edge in the new graph. -/
def renameEdgeStep {α W : Type} [DecidableEq α] (g : digraph α W)
    (m : List (α × PyStr)) (ng : digraph PyStr W) (e : α × α) :
    Except String (digraph PyStr W) :=
  match g.edge_rec e with
  | none => .error "KeyError"
  | some r =>
    match lookupId m e.1 with
    | .error e1 => .error e1
    | .ok src =>
      match lookupId m e.2 with
      | .error e1 => .error e1
      | .ok dest => ng.add_edge (src, dest) r.1 r.2.1 r.2.2

/-- friendly_rename from the source: the node pass followed by the edge
pass over the unmodified input graph (the model is pure, so the input is a
value that cannot be mutated; the source also leaves it untouched). -/
def friendly_rename {α W : Type} [DecidableEq α] (g : digraph α W)
    (pfx : PyStr) : Except String (digraph PyStr W) :=
  match rename_nodes g pfx with
  | .error e => .error e
  | .ok st => foldE (renameEdgeStep g st.identifierMap) st.newGraph g.edges

/-- Well formed digraph values: exactly the states reachable through the
pygraph mutators: no duplicate node, no duplicate edge key, and both
endpoints of every edge present among the nodes. -/
def digraph.WF {α W : Type} (g : digraph α W) : Prop :=
  g.nodes.Nodup ∧ g.edges.Nodup ∧
    ∀ e ∈ g.edges, e.1 ∈ g.nodes ∧ e.2 ∈ g.nodes

instance {α W : Type} [DecidableEq α] (g : digraph α W) : Decidable g.WF :=
  inferInstanceAs (Decidable (g.nodes.Nodup ∧ g.edges.Nodup ∧
    ∀ e ∈ g.edges, e.1 ∈ g.nodes ∧ e.2 ∈ g.nodes))

/-- The renamed running example (the at sign is code point 64, the digits
one to three are code points 49 to 51, the letter A is 65). -/
def exampleRenamed : digraph PyStr Int :=
  { nodeList :=
      [([65], [("color", "red")]),
       ([64, 49], [("color", "black")]),
       ([64, 50], [("color", "black")]),
       ([64, 51], [("color", "black")])],
    edgeList :=
      [((([65] : PyStr), ([64, 49] : PyStr)), (1, ("", []))),
       ((([65] : PyStr), ([64, 50] : PyStr)), (1, ("", []))),
       ((([64, 49] : PyStr), ([64, 50] : PyStr)), (2, ("", []))),
       ((([64, 49] : PyStr), ([64, 51] : PyStr)), (1, ("", []))),
       ((([64, 50] : PyStr), ([64, 51] : PyStr)), (1, ("", [])))] }

example : friendly_rename exampleGraph [] = .ok exampleRenamed := rfl

/-! ### Identifier arithmetic -/

/-- The number a digit code point list denotes, reading forward. -/
def decimalVal (l : List Nat) : Nat := l.foldl (fun a d => 10 * a + (d - 48)) 0

/-- The fueled digit expansion is read back by decimalVal. -/
theorem decimalVal_decimalCore :
    ∀ (fuel n : Nat), n < fuel → decimalVal (decimalCore fuel n) = n := by
  intro fuel
  induction fuel with
  | zero => intro n h; omega
  | succ fuel ih =>
    intro n h
    by_cases h10 : n < 10
    · simp only [decimalCore, if_pos h10, decimalVal, List.foldl_cons,
        List.foldl_nil]
      omega
    · have hdivlt : n / 10 < fuel := by omega
      simp only [decimalCore, if_neg h10, decimalVal, List.foldl_append,
        List.foldl_cons, List.foldl_nil]
      have := ih (n / 10) hdivlt
      simp only [decimalVal] at this
      rw [this]
      omega

/-- Python str is injective on natural numbers. -/
theorem strOfNat_inj {m n : Nat} (h : strOfNat m = strOfNat n) : m = n := by
  have hm := decimalVal_decimalCore (m + 1) m (by omega)
  have hn := decimalVal_decimalCore (n + 1) n (by omega)
  rw [strOfNat] at h
  rw [strOfNat] at h
  rw [← hm, ← hn, h]

/-- Python str of a number is never the empty string. -/
theorem strOfNat_length_pos (n : Nat) : 0 < (strOfNat n).length := by
  rw [strOfNat, decimalCore]
  split <;> simp

/-- The letter class identifier with offset t: the prefix followed by the
single code point 65 + t. -/
def letterId (pfx : PyStr) (t : Nat) : PyStr := pfx ++ [65 + t]

/-- The number class identifier with offset t: the at sign, the prefix and
the decimal digits of 1 + t. -/
def numId (pfx : PyStr) (t : Nat) : PyStr := 64 :: (pfx ++ strOfNat (1 + t))

/-- Letter identifiers with distinct offsets differ. -/
theorem letterId_inj {pfx : PyStr} {t t1 : Nat}
    (h : letterId pfx t = letterId pfx t1) : t = t1 := by
  simp only [letterId, List.append_cancel_left_eq, List.cons.injEq] at h
  omega

/-- Number identifiers with distinct offsets differ. -/
theorem numId_inj {pfx : PyStr} {t t1 : Nat}
    (h : numId pfx t = numId pfx t1) : t = t1 := by
  simp only [numId, List.cons.injEq, List.append_cancel_left_eq] at h
  have := strOfNat_inj h.2
  omega

/-- A letter identifier never coincides with a number identifier: the
number identifier is strictly longer (the at sign plus at least one
digit). -/
theorem letterId_ne_numId (pfx : PyStr) (t t1 : Nat) :
    letterId pfx t ≠ numId pfx t1 := by
  intro h
  have hlen := congrArg List.length h
  have hpos := strOfNat_length_pos (1 + t1)
  simp only [letterId, numId, List.length_append, List.length_cons,
    List.length_nil] at hlen
  omega

/-- The zero in-degree test of the node pass, as a Bool. -/
def zeroIn {α W : Type} [DecidableEq α] (g : digraph α W) (x : α) : Bool :=
  decide (g.incidents x = [])

/-- Number of zero in-degree nodes in a list. -/
def countZ {α W : Type} [DecidableEq α] (g : digraph α W) (l : List α) : Nat :=
  (l.filter (fun x => zeroIn g x)).length

/-- Number of positive in-degree nodes in a list. -/
def countN {α W : Type} [DecidableEq α] (g : digraph α W) (l : List α) : Nat :=
  (l.filter (fun x => !zeroIn g x)).length

/-- Invariant of the node pass of friendly_rename after the nodes of done
have been processed: counter values, the processed keys in order, the two
classes of assigned identifiers in counter order, and the new graph
holding exactly the assigned identifiers and no edge. -/
structure RenameInv {α W : Type} [DecidableEq α] (g : digraph α W)
    (pfx : PyStr) (done : List α) (st : RenameState α W) : Prop where
  hL : st.nextLetter = 65 + countZ g done
  hN : st.nextNumber = 1 + countN g done
  hfst : st.identifierMap.map Prod.fst = done
  hzf : (st.identifierMap.filter (fun p => zeroIn g p.1)).map Prod.snd =
    (List.range (countZ g done)).map (letterId pfx)
  hnf : (st.identifierMap.filter (fun p => !zeroIn g p.1)).map Prod.snd =
    (List.range (countN g done)).map (numId pfx)
  hnodes : st.newGraph.nodes = st.identifierMap.map Prod.snd
  hedges : st.newGraph.edgeList = []
  hlen : st.newGraph.nodeList.length = done.length

/-- Identifiers recorded so far, characterized through the invariant. -/
theorem idMap_snd_mem {α W : Type} [DecidableEq α] {g : digraph α W}
    {pfx : PyStr} {done : List α} {st : RenameState α W}
    (hinv : RenameInv g pfx done st) {id : PyStr} :
    id ∈ st.identifierMap.map Prod.snd ↔
      (∃ t, t < countZ g done ∧ id = letterId pfx t) ∨
      (∃ t, t < countN g done ∧ id = numId pfx t) := by
  have hperm :=
    (List.filter_append_perm (fun p => zeroIn g p.1) st.identifierMap).map
      Prod.snd
  rw [← hperm.mem_iff, List.map_append, hinv.hzf, hinv.hnf]
  simp only [List.mem_append, List.mem_map, List.mem_range]
  constructor
  · rintro (⟨t, ht, rfl⟩ | ⟨t, ht, rfl⟩)
    · exact Or.inl ⟨t, ht, rfl⟩
    · exact Or.inr ⟨t, ht, rfl⟩
  · rintro (⟨t, ht, rfl⟩ | ⟨t, ht, rfl⟩)
    · exact Or.inl ⟨t, ht, rfl⟩
    · exact Or.inr ⟨t, ht, rfl⟩

/-- The identifiers recorded so far are pairwise distinct. -/
theorem idMap_snd_nodup {α W : Type} [DecidableEq α] {g : digraph α W}
    {pfx : PyStr} {done : List α} {st : RenameState α W}
    (hinv : RenameInv g pfx done st) :
    (st.identifierMap.map Prod.snd).Nodup := by
  have hperm :=
    (List.filter_append_perm (fun p => zeroIn g p.1) st.identifierMap).map
      Prod.snd
  rw [← hperm.nodup_iff, List.map_append, hinv.hzf, hinv.hnf]
  refine List.Nodup.append ?_ ?_ ?_
  · exact (List.nodup_range _).map (fun _ _ h => letterId_inj h)
  · exact (List.nodup_range _).map (fun _ _ h => numId_inj h)
  · rw [List.disjoint_left]
    rintro id h1 h2
    rcases List.mem_map.1 h1 with ⟨t, _, rfl⟩
    rcases List.mem_map.1 h2 with ⟨t1, _, heq⟩
    exact letterId_ne_numId pfx t t1 heq.symm

/-- Appending a zero in-degree node bumps the letter count. -/
theorem countZ_append_pos {α W : Type} [DecidableEq α] {g : digraph α W}
    {x : α} (done : List α) (hz : zeroIn g x = true) :
    countZ g (done ++ [x]) = countZ g done + 1 := by
  simp [countZ, List.filter_append, hz]

/-- Appending a zero in-degree node keeps the number count. -/
theorem countN_append_pos {α W : Type} [DecidableEq α] {g : digraph α W}
    {x : α} (done : List α) (hz : zeroIn g x = true) :
    countN g (done ++ [x]) = countN g done := by
  simp [countN, List.filter_append, hz]

/-- Appending a positive in-degree node keeps the letter count. -/
theorem countZ_append_neg {α W : Type} [DecidableEq α] {g : digraph α W}
    {x : α} (done : List α) (hz : zeroIn g x = false) :
    countZ g (done ++ [x]) = countZ g done := by
  simp [countZ, List.filter_append, hz]

/-- Appending a positive in-degree node bumps the number count. -/
theorem countN_append_neg {α W : Type} [DecidableEq α] {g : digraph α W}
    {x : α} (done : List α) (hz : zeroIn g x = false) :
    countN g (done ++ [x]) = countN g done + 1 := by
  simp [countN, List.filter_append, hz]

/-- Main lemma of the node pass: from a state satisfying the invariant for
the processed prefix, the loop over the remaining nodes succeeds (the bound
keeps the letter counter inside the Unicode range) and reestablishes the
invariant for the whole list. -/
theorem rename_nodes_go {α W : Type} [DecidableEq α] (g : digraph α W)
    (pfx : PyStr) (hbound : 65 + g.nodes.length ≤ 1114112) :
    ∀ (rest done : List α) (st : RenameState α W),
      g.nodes = done ++ rest →
      RenameInv g pfx done st →
      ∃ st1, foldE (renameNodeStep g pfx) st rest = .ok st1 ∧
        RenameInv g pfx (done ++ rest) st1 := by
  intro rest
  induction rest with
  | nil =>
    intro done st _ hinv
    exact ⟨st, rfl, by simpa using hinv⟩
  | cons x rest2 ih =>
    intro done st hsplit hinv
    have hdonelen : done.length + 1 ≤ g.nodes.length := by
      have hlencong := congrArg List.length hsplit
      simp only [List.length_append, List.length_cons] at hlencong
      omega
    by_cases hz : zeroIn g x = true
    · -- letter branch
      have hzprop : g.incidents x = [] := by simpa [zeroIn] using hz
      have hcountle : countZ g done ≤ done.length :=
        List.length_filter_le _ _
      have hchr : chr st.nextLetter = .ok [65 + countZ g done] := by
        rw [hinv.hL, chr, if_pos (by omega)]
      have hfresh : (pfx ++ [65 + countZ g done]) ∉ st.newGraph.nodes := by
        intro hmem
        rw [hinv.hnodes] at hmem
        rcases (idMap_snd_mem hinv).1 hmem with ⟨t, ht, heq⟩ | ⟨t, ht, heq⟩
        · have : countZ g done = t := letterId_inj heq
          omega
        · exact letterId_ne_numId pfx (countZ g done) t heq
      have hstep : renameNodeStep g pfx st x = .ok
          ⟨st.nextLetter + 1, st.nextNumber,
            st.identifierMap ++ [(x, pfx ++ [65 + countZ g done])],
            { st.newGraph with nodeList := st.newGraph.nodeList ++
                [(pfx ++ [65 + countZ g done], g.node_attributes x)] }⟩ := by
        simp only [renameNodeStep, if_pos hzprop, hchr, digraph.add_node,
          if_neg hfresh]
      have hinv1 : RenameInv g pfx (done ++ [x])
          ⟨st.nextLetter + 1, st.nextNumber,
            st.identifierMap ++ [(x, pfx ++ [65 + countZ g done])],
            { st.newGraph with nodeList := st.newGraph.nodeList ++
                [(pfx ++ [65 + countZ g done], g.node_attributes x)] }⟩ := by
        refine ⟨?_, ?_, ?_, ?_, ?_, ?_, ?_, ?_⟩
        · show st.nextLetter + 1 = 65 + countZ g (done ++ [x])
          rw [hinv.hL, countZ_append_pos done hz]
          omega
        · show st.nextNumber = 1 + countN g (done ++ [x])
          rw [hinv.hN, countN_append_pos done hz]
        · simp [hinv.hfst]
        · rw [countZ_append_pos done hz]
          simp only [List.filter_append, List.map_append, hinv.hzf]
          rw [List.range_succ, List.map_append]
          simp [hz, letterId]
        · rw [countN_append_pos done hz]
          simp only [List.filter_append, List.map_append, hinv.hnf]
          simp [hz]
        · simp only [digraph.nodes, List.map_append, List.map_cons,
            List.map_nil]
          rw [← digraph.nodes, hinv.hnodes]
        · exact hinv.hedges
        · simp [hinv.hlen]
      obtain ⟨st1, hfold, hinvfin⟩ :=
        ih (done ++ [x]) _ (by rw [hsplit, List.append_assoc]; rfl) hinv1
      refine ⟨st1, ?_, ?_⟩
      · simp only [foldE, hstep]
        exact hfold
      · rw [show done ++ x :: rest2 = (done ++ [x]) ++ rest2 by
          rw [List.append_assoc]; rfl]
        exact hinvfin
    · -- number branch
      have hzfalse : zeroIn g x = false := by
        cases hb : zeroIn g x
        · rfl
        · exact absurd hb hz
      have hzprop : ¬ g.incidents x = [] := by
        intro hc
        rw [zeroIn] at hzfalse
        simp [hc] at hzfalse
      have hid : 64 :: (pfx ++ strOfNat st.nextNumber) =
          numId pfx (countN g done) := by
        rw [hinv.hN, numId]
      have hfresh : (64 :: (pfx ++ strOfNat st.nextNumber)) ∉
          st.newGraph.nodes := by
        intro hmem
        rw [hinv.hnodes] at hmem
        rw [hid] at hmem
        rcases (idMap_snd_mem hinv).1 hmem with ⟨t, ht, heq⟩ | ⟨t, ht, heq⟩
        · exact letterId_ne_numId pfx t (countN g done) heq.symm
        · have : countN g done = t := numId_inj heq
          omega
      have hstep : renameNodeStep g pfx st x = .ok
          ⟨st.nextLetter, st.nextNumber + 1,
            st.identifierMap ++ [(x, 64 :: (pfx ++ strOfNat st.nextNumber))],
            { st.newGraph with nodeList := st.newGraph.nodeList ++
                [(64 :: (pfx ++ strOfNat st.nextNumber),
                  g.node_attributes x)] }⟩ := by
        simp only [renameNodeStep, if_neg hzprop, digraph.add_node,
          if_neg hfresh]
      have hinv1 : RenameInv g pfx (done ++ [x])
          ⟨st.nextLetter, st.nextNumber + 1,
            st.identifierMap ++ [(x, 64 :: (pfx ++ strOfNat st.nextNumber))],
            { st.newGraph with nodeList := st.newGraph.nodeList ++
                [(64 :: (pfx ++ strOfNat st.nextNumber),
                  g.node_attributes x)] }⟩ := by
        refine ⟨?_, ?_, ?_, ?_, ?_, ?_, ?_, ?_⟩
        · show st.nextLetter = 65 + countZ g (done ++ [x])
          rw [hinv.hL, countZ_append_neg done hzfalse]
        · show st.nextNumber + 1 = 1 + countN g (done ++ [x])
          rw [hinv.hN, countN_append_neg done hzfalse]
          omega
        · simp [hinv.hfst]
        · rw [countZ_append_neg done hzfalse]
          simp only [List.filter_append, List.map_append, hinv.hzf]
          simp [hzfalse]
        · rw [countN_append_neg done hzfalse]
          simp only [List.filter_append, List.map_append, hinv.hnf]
          rw [List.range_succ, List.map_append]
          simp [hzfalse, hid]
        · simp only [digraph.nodes, List.map_append, List.map_cons,
            List.map_nil]
          rw [← digraph.nodes, hinv.hnodes]
        · exact hinv.hedges
        · simp [hinv.hlen]
      obtain ⟨st1, hfold, hinvfin⟩ :=
        ih (done ++ [x]) _ (by rw [hsplit, List.append_assoc]; rfl) hinv1
      refine ⟨st1, ?_, ?_⟩
      · simp only [foldE, hstep]
        exact hfold
      · rw [show done ++ x :: rest2 = (done ++ [x]) ++ rest2 by
          rw [List.append_assoc]; rfl]
        exact hinvfin

/-- The node pass of friendly_rename succeeds on every graph whose node
count keeps the letter counter below the Unicode bound, and its final
state satisfies the invariant for the full node list. -/
theorem rename_nodes_spec {α W : Type} [DecidableEq α] (g : digraph α W)
    (pfx : PyStr) (hbound : 65 + g.nodes.length ≤ 1114112) :
    ∃ st, rename_nodes g pfx = .ok st ∧ RenameInv g pfx g.nodes st := by
  have base : RenameInv g pfx []
      (⟨65, 1, [], digraph.empty⟩ : RenameState α W) := by
    refine ⟨?_, ?_, rfl, ?_, ?_, rfl, rfl, rfl⟩
    · simp [countZ]
    · simp [countN]
    · simp [countZ]
    · simp [countN]
  obtain ⟨st1, h1, h2⟩ :=
    rename_nodes_go g pfx hbound g.nodes [] _ (by simp) base
  exact ⟨st1, h1, by simpa using h2⟩

/-- Total form of the identifier lookup, used to state the remapping. -/
def mapId {α : Type} [DecidableEq α] (m : List (α × PyStr)) (x : α) : PyStr :=
  ((m.find? (fun p => decide (p.1 = x))).map Prod.snd).getD []

/-- A recorded key is found, and the found entry carries that key. -/
theorem find?_key_mem {α : Type} [DecidableEq α] {m : List (α × PyStr)}
    {x : α} (hx : x ∈ m.map Prod.fst) :
    ∃ p, m.find? (fun p => decide (p.1 = x)) = some p ∧ p ∈ m ∧ p.1 = x := by
  induction m with
  | nil => simp at hx
  | cons q m ih =>
    by_cases hq : q.1 = x
    · refine ⟨q, ?_, List.mem_cons_self q m, hq⟩
      rw [List.find?_cons_of_pos _ (by simp [hq])]
    · have hx2 : x ∈ m.map Prod.fst := by
        have hx1 : x ∈ q.1 :: m.map Prod.fst := by simpa using hx
        rcases List.mem_cons.1 hx1 with h | h
        · exact absurd h.symm hq
        · exact h
      obtain ⟨p, hfind, hpmem, hpx⟩ := ih hx2
      exact ⟨p, by rw [List.find?_cons_of_neg _ (by simp [hq])]; exact hfind,
        List.mem_cons_of_mem q hpmem, hpx⟩

/-- Lookup of a recorded key succeeds with the mapId value, and the pair is
an entry of the map. -/
theorem lookupId_ok {α : Type} [DecidableEq α] {m : List (α × PyStr)}
    {x : α} (hx : x ∈ m.map Prod.fst) :
    lookupId m x = .ok (mapId m x) ∧ (x, mapId m x) ∈ m := by
  obtain ⟨p, hfind, hpmem, hpx⟩ := find?_key_mem hx
  obtain ⟨p1, p2⟩ := p
  cases hpx
  constructor
  · rw [lookupId, hfind, mapId, hfind]
    rfl
  · rw [mapId, hfind]
    simpa using hpmem

/-- With distinct keys and distinct identifiers the remapping is injective
on the recorded keys. -/
theorem mapId_inj {α : Type} [DecidableEq α] {m : List (α × PyStr)}
    (hsndnd : (m.map Prod.snd).Nodup)
    {x y : α} (hx : x ∈ m.map Prod.fst) (hy : y ∈ m.map Prod.fst)
    (hxy : mapId m x = mapId m y) : x = y := by
  obtain ⟨_, hmx⟩ := lookupId_ok hx
  obtain ⟨_, hmy⟩ := lookupId_ok hy
  have := List.inj_on_of_nodup_map hsndnd hmx hmy (by simpa using hxy)
  simpa using congrArg Prod.fst this

/-- In a record list with pairwise distinct keys, searching the key of a
record returns that record. -/
theorem find?_self_of_keys_nodup {α W : Type} [DecidableEq α]
    {l : List ((α × α) × (W × (String × Attrs)))}
    (hnd : (l.map Prod.fst).Nodup) :
    ∀ r ∈ l, l.find? (fun q => decide (q.1 = r.1)) = some r := by
  induction l with
  | nil => intro r hr; cases hr
  | cons q l ih =>
    intro r hr
    rcases List.mem_cons.1 hr with rfl | hmem
    · rw [List.find?_cons_of_pos _ (by simp)]
    · have hq : q.1 ≠ r.1 := by
        intro hc
        have : r.1 ∈ l.map Prod.fst := List.mem_map_of_mem Prod.fst hmem
        rw [← hc] at this
        exact (List.nodup_cons.1 (by simpa using hnd)).1 this
      rw [List.find?_cons_of_neg _ (by simp [hq])]
      exact ih (List.nodup_cons.1 (by simpa using hnd)).2 r hmem

/-- Main lemma of the edge pass: folding the edge step over the keys of a
record list whose records are found in the source graph, whose remapped
endpoints are known identifiers of the new graph, whose remapped keys are
pairwise distinct, and whose remapped keys are fresh in the new graph,
succeeds and appends exactly the remapped records. -/
theorem rename_edges_go {α W : Type} [DecidableEq α] (g : digraph α W)
    (m : List (α × PyStr)) :
    ∀ (recs : List ((α × α) × (W × (String × Attrs)))) (ng : digraph PyStr W),
      (∀ r ∈ recs, g.edge_rec r.1 = some r.2) →
      (∀ r ∈ recs, lookupId m r.1.1 = .ok (mapId m r.1.1) ∧
        lookupId m r.1.2 = .ok (mapId m r.1.2) ∧
        mapId m r.1.1 ∈ ng.nodes ∧ mapId m r.1.2 ∈ ng.nodes) →
      (recs.map (fun r => (mapId m r.1.1, mapId m r.1.2))).Nodup →
      (∀ r ∈ recs, (mapId m r.1.1, mapId m r.1.2) ∉ ng.edges) →
      ∃ ng1, foldE (renameEdgeStep g m) ng (recs.map Prod.fst) = .ok ng1 ∧
        ng1.nodeList = ng.nodeList ∧
        ng1.edgeList = ng.edgeList ++
          recs.map (fun r => ((mapId m r.1.1, mapId m r.1.2), r.2)) := by
  intro recs
  induction recs with
  | nil => intro ng _ _ _ _; exact ⟨ng, rfl, rfl, by simp⟩
  | cons r recs ih =>
    intro ng hrec hlk hnd hnew
    obtain ⟨hl1, hl2, hm1, hm2⟩ := hlk r (List.mem_cons_self r recs)
    have hcond : (mapId m r.1.1, mapId m r.1.2).1 ∈ ng.nodes ∧
        (mapId m r.1.1, mapId m r.1.2).2 ∈ ng.nodes := ⟨hm1, hm2⟩
    have hhe : ¬ ng.has_edge (mapId m r.1.1, mapId m r.1.2) :=
      hnew r (List.mem_cons_self r recs)
    have hstep : renameEdgeStep g m ng r.1 = .ok
        { ng with edgeList := ng.edgeList ++
            [((mapId m r.1.1, mapId m r.1.2), r.2)] } := by
      simp only [renameEdgeStep, hrec r (List.mem_cons_self r recs), hl1, hl2,
        digraph.add_edge, if_pos hcond, if_neg hhe]
    have hnd1 : (mapId m r.1.1, mapId m r.1.2) ∉
        recs.map (fun r2 => (mapId m r2.1.1, mapId m r2.1.2)) ∧
        (recs.map (fun r2 => (mapId m r2.1.1, mapId m r2.1.2))).Nodup := by
      rw [List.map_cons] at hnd
      exact List.nodup_cons.1 hnd
    obtain ⟨ng1, hfold, hnl, hel⟩ := ih
      { ng with edgeList := ng.edgeList ++
          [((mapId m r.1.1, mapId m r.1.2), r.2)] }
      (fun r2 h2 => hrec r2 (List.mem_cons_of_mem r h2))
      (fun r2 h2 => hlk r2 (List.mem_cons_of_mem r h2))
      hnd1.2
      (fun r2 h2 hc => by
        have hc1 : (mapId m r2.1.1, mapId m r2.1.2) ∈
            ng.edges ++ [(mapId m r.1.1, mapId m r.1.2)] := by
          simpa [digraph.edges] using hc
        rcases List.mem_append.1 hc1 with hc2 | hc2
        · exact hnew r2 (List.mem_cons_of_mem r h2) hc2
        · exact hnd1.1 (by
            rw [← List.mem_singleton.1 hc2]
            exact List.mem_map_of_mem _ h2))
    refine ⟨ng1, ?_, ?_, ?_⟩
    · simp only [List.map_cons, foldE, hstep]
      exact hfold
    · exact hnl
    · rw [hel]
      simp

/-- Master theorem of friendly_rename: on a well formed graph whose node
count keeps the letter counter inside the Unicode range, the call
succeeds; the final node pass state satisfies the invariant, the output
nodes are the recorded identifiers, and the output edges are exactly the
input edge records with both endpoints remapped through the identifier
map, in order, with weight, label and attributes untouched. -/
theorem friendly_rename_master {α W : Type} [DecidableEq α]
    (g : digraph α W) (pfx : PyStr) (hwf : g.WF)
    (hbound : 65 + g.nodes.length ≤ 1114112) :
    ∃ st g1, rename_nodes g pfx = .ok st ∧ friendly_rename g pfx = .ok g1 ∧
      RenameInv g pfx g.nodes st ∧
      g1.nodeList = st.newGraph.nodeList ∧
      g1.edgeList = g.edgeList.map (fun r =>
        ((mapId st.identifierMap r.1.1, mapId st.identifierMap r.1.2), r.2)) := by
  obtain ⟨hnodesnd, hedgesnd, hends⟩ := hwf
  obtain ⟨st, hnok, hinv⟩ := rename_nodes_spec g pfx hbound
  have hkeys : st.identifierMap.map Prod.fst = g.nodes := hinv.hfst
  have hsndnd := idMap_snd_nodup hinv
  have hreclnd : g.edgeList.Nodup := List.Nodup.of_map Prod.fst hedgesnd
  have hrec : ∀ r ∈ g.edgeList, g.edge_rec r.1 = some r.2 := by
    intro r hr
    rw [digraph.edge_rec, find?_self_of_keys_nodup hedgesnd r hr]
    rfl
  have hlk : ∀ r ∈ g.edgeList,
      lookupId st.identifierMap r.1.1 = .ok (mapId st.identifierMap r.1.1) ∧
      lookupId st.identifierMap r.1.2 = .ok (mapId st.identifierMap r.1.2) ∧
      mapId st.identifierMap r.1.1 ∈ st.newGraph.nodes ∧
      mapId st.identifierMap r.1.2 ∈ st.newGraph.nodes := by
    intro r hr
    have hkey : r.1 ∈ g.edges := List.mem_map_of_mem Prod.fst hr
    obtain ⟨h1mem, h2mem⟩ := hends r.1 hkey
    rw [← hkeys] at h1mem h2mem
    obtain ⟨hlk1, hpair1⟩ := lookupId_ok h1mem
    obtain ⟨hlk2, hpair2⟩ := lookupId_ok h2mem
    refine ⟨hlk1, hlk2, ?_, ?_⟩
    · rw [hinv.hnodes]
      exact List.mem_map_of_mem Prod.snd hpair1
    · rw [hinv.hnodes]
      exact List.mem_map_of_mem Prod.snd hpair2
  have hmappednd : (g.edgeList.map (fun r =>
      (mapId st.identifierMap r.1.1, mapId st.identifierMap r.1.2))).Nodup := by
    refine List.Nodup.map_on ?_ hreclnd
    intro r hr r2 hr2 heq
    have hk1 : r.1 ∈ g.edges := List.mem_map_of_mem Prod.fst hr
    have hk2 : r2.1 ∈ g.edges := List.mem_map_of_mem Prod.fst hr2
    obtain ⟨ha1, ha2⟩ := hends r.1 hk1
    obtain ⟨hb1, hb2⟩ := hends r2.1 hk2
    rw [← hkeys] at ha1 ha2 hb1 hb2
    have heq1 : mapId st.identifierMap r.1.1 = mapId st.identifierMap r2.1.1 :=
      congrArg Prod.fst heq
    have heq2 : mapId st.identifierMap r.1.2 = mapId st.identifierMap r2.1.2 :=
      congrArg Prod.snd heq
    have hfst : r.1.1 = r2.1.1 := mapId_inj hsndnd ha1 hb1 heq1
    have hsnd : r.1.2 = r2.1.2 := mapId_inj hsndnd ha2 hb2 heq2
    have hkeyeq : r.1 = r2.1 := Prod.ext hfst hsnd
    exact List.inj_on_of_nodup_map hedgesnd hr hr2 hkeyeq
  have hnew : ∀ r ∈ g.edgeList,
      (mapId st.identifierMap r.1.1, mapId st.identifierMap r.1.2) ∉
        st.newGraph.edges := by
    intro r _ hc
    rw [digraph.edges, hinv.hedges] at hc
    cases hc
  obtain ⟨g1, hfold, hnl, hel⟩ :=
    rename_edges_go g st.identifierMap g.edgeList st.newGraph hrec hlk
      hmappednd hnew
  refine ⟨st, g1, hnok, ?_, hinv, hnl, ?_⟩
  · simp only [friendly_rename, hnok]
    exact hfold
  · rw [hel, hinv.hedges]
    simp

/-- C6: relabel returns a new graph with the same node count and the same
edge count as its input, with every edge weight, label and attribute list
preserved under the endpoint remapping; the model is a pure function of
its argument, so the input graph value is the same before and after the
call (the source likewise only reads the input graph). -/
theorem friendly_rename_preserves_structure {α W : Type} [DecidableEq α]
    (g : digraph α W) (pfx : PyStr) (hwf : g.WF)
    (hbound : 65 + g.nodes.length ≤ 1114112) :
    ∃ g1, friendly_rename g pfx = .ok g1 ∧
      g1.nodeList.length = g.nodeList.length ∧
      g1.edgeList.length = g.edgeList.length ∧
      ∃ f : α → PyStr, g1.edgeList =
        g.edgeList.map (fun r => ((f r.1.1, f r.1.2), r.2)) := by
  obtain ⟨st, g1, hn, hr, hinv, hnl, hel⟩ :=
    friendly_rename_master g pfx hwf hbound
  refine ⟨g1, hr, ?_, ?_, mapId st.identifierMap, hel⟩
  · rw [hnl, hinv.hlen, digraph.nodes, List.length_map]
  · rw [hel, List.length_map]

/-- Witness for C6 at the built example graph. -/
theorem friendly_rename_preserves_structure_witness :
    (exampleGraph.WF ∧ 65 + exampleGraph.nodes.length ≤ 1114112) ∧
    (∃ g1, friendly_rename exampleGraph [] = .ok g1 ∧
      g1.nodeList.length = exampleGraph.nodeList.length ∧
      g1.edgeList.length = exampleGraph.edgeList.length ∧
      ∃ f : Point → PyStr, g1.edgeList =
        exampleGraph.edgeList.map (fun r => ((f r.1.1, f r.1.2), r.2))) :=
  ⟨⟨by decide, by decide⟩,
    friendly_rename_preserves_structure exampleGraph [] (by decide) (by decide)⟩

/-- C7: in the output of relabel every node that had no incoming edge
receives the prefix followed by one character (a capital letter within the
26 letter alphabet whenever at most 26 such nodes exist), every node with
an incoming edge receives the at sign, the prefix and a positive decimal
counter value, and the assignment is a bijection: the recorded keys are
exactly the nodes, each once, and the identifiers are pairwise distinct. -/
theorem friendly_rename_identifier_classes {α W : Type} [DecidableEq α]
    (g : digraph α W) (pfx : PyStr) (hwf : g.WF)
    (hbound : 65 + g.nodes.length ≤ 1114112) :
    ∃ st g1, rename_nodes g pfx = .ok st ∧ friendly_rename g pfx = .ok g1 ∧
      st.identifierMap.map Prod.fst = g.nodes ∧
      (st.identifierMap.map Prod.snd).Nodup ∧
      g1.nodes = st.identifierMap.map Prod.snd ∧
      ∀ p ∈ st.identifierMap,
        (g.incidents p.1 = [] →
          ∃ c, 65 ≤ c ∧ p.2 = pfx ++ [c] ∧
            (countZ g g.nodes ≤ 26 → c ≤ 90)) ∧
        (g.incidents p.1 ≠ [] →
          ∃ n, 1 ≤ n ∧ p.2 = 64 :: (pfx ++ strOfNat n)) := by
  obtain ⟨st, g1, hn, hr, hinv, hnl, _⟩ :=
    friendly_rename_master g pfx hwf hbound
  refine ⟨st, g1, hn, hr, hinv.hfst, idMap_snd_nodup hinv, ?_, ?_⟩
  · rw [digraph.nodes, hnl, ← digraph.nodes, hinv.hnodes]
  · intro p hp
    constructor
    · intro hzero
      have hpf : p ∈ st.identifierMap.filter (fun q => zeroIn g q.1) :=
        List.mem_filter.2 ⟨hp, by simp [zeroIn, hzero]⟩
      have hsnd : p.2 ∈ (st.identifierMap.filter
          (fun q => zeroIn g q.1)).map Prod.snd :=
        List.mem_map_of_mem Prod.snd hpf
      rw [hinv.hzf] at hsnd
      rcases List.mem_map.1 hsnd with ⟨t, ht, heq⟩
      rw [List.mem_range] at ht
      refine ⟨65 + t, by omega, heq.symm, ?_⟩
      intro h26
      omega
    · intro hnonzero
      have hpf : p ∈ st.identifierMap.filter (fun q => !zeroIn g q.1) :=
        List.mem_filter.2 ⟨hp, by simp [zeroIn, hnonzero]⟩
      have hsnd : p.2 ∈ (st.identifierMap.filter
          (fun q => !zeroIn g q.1)).map Prod.snd :=
        List.mem_map_of_mem Prod.snd hpf
      rw [hinv.hnf] at hsnd
      rcases List.mem_map.1 hsnd with ⟨t, ht, heq⟩
      exact ⟨1 + t, by omega, heq.symm⟩

/-- Witness for C7 at the built example graph. -/
theorem friendly_rename_identifier_classes_witness :
    (exampleGraph.WF ∧ 65 + exampleGraph.nodes.length ≤ 1114112) ∧
    (∃ st g1, rename_nodes exampleGraph [] = .ok st ∧
      friendly_rename exampleGraph [] = .ok g1 ∧
      st.identifierMap.map Prod.fst = exampleGraph.nodes ∧
      (st.identifierMap.map Prod.snd).Nodup ∧
      g1.nodes = st.identifierMap.map Prod.snd ∧
      ∀ p ∈ st.identifierMap,
        (exampleGraph.incidents p.1 = [] →
          ∃ c, 65 ≤ c ∧ p.2 = [] ++ [c] ∧
            (countZ exampleGraph exampleGraph.nodes ≤ 26 → c ≤ 90)) ∧
        (exampleGraph.incidents p.1 ≠ [] →
          ∃ n, 1 ≤ n ∧ p.2 = 64 :: ([] ++ strOfNat n))) :=
  ⟨⟨by decide, by decide⟩,
    friendly_rename_identifier_classes exampleGraph [] (by decide) (by decide)⟩

/-- C10: the letter counter never wraps or repeats: the identifiers of the
zero in-degree nodes, in processing order, are exactly the prefix followed
by the code points 65, 66, and so on (running past 90, the letter Z, into
91 and beyond when more than 26 such nodes exist), they are pairwise
distinct, and the output graph keeps exactly one node per input node. -/
theorem friendly_rename_letters_never_wrap {α W : Type} [DecidableEq α]
    (g : digraph α W) (pfx : PyStr) (hwf : g.WF)
    (hbound : 65 + g.nodes.length ≤ 1114112) :
    ∃ st g1, rename_nodes g pfx = .ok st ∧ friendly_rename g pfx = .ok g1 ∧
      (st.identifierMap.filter (fun p => zeroIn g p.1)).map Prod.snd =
        (List.range (countZ g g.nodes)).map (letterId pfx) ∧
      ((st.identifierMap.filter (fun p => zeroIn g p.1)).map Prod.snd).Nodup ∧
      g1.nodeList.length = g.nodeList.length := by
  obtain ⟨st, g1, hn, hr, hinv, hnl, _⟩ :=
    friendly_rename_master g pfx hwf hbound
  refine ⟨st, g1, hn, hr, hinv.hzf, ?_, ?_⟩
  · rw [hinv.hzf]
    exact (List.nodup_range _).map (fun _ _ h => letterId_inj h)
  · rw [hnl, hinv.hlen, digraph.nodes, List.length_map]

/-- A graph with 28 isolated nodes, all of in-degree zero. -/
def bigGraph : digraph Point Int :=
  { nodeList := (List.range 28).map (fun k => ([Int.ofNat k], [])),
    edgeList := [] }

/-- Witness for C10 at a graph with 28 zero in-degree nodes, where the
letter codes run past 90. -/
theorem friendly_rename_letters_never_wrap_witness :
    (bigGraph.WF ∧ 65 + bigGraph.nodes.length ≤ 1114112) ∧
    (∃ st g1, rename_nodes bigGraph [] = .ok st ∧
      friendly_rename bigGraph [] = .ok g1 ∧
      (st.identifierMap.filter (fun p => zeroIn bigGraph p.1)).map Prod.snd =
        (List.range (countZ bigGraph bigGraph.nodes)).map (letterId []) ∧
      ((st.identifierMap.filter
        (fun p => zeroIn bigGraph p.1)).map Prod.snd).Nodup ∧
      g1.nodeList.length = bigGraph.nodeList.length) :=
  ⟨⟨by decide, by decide⟩,
    friendly_rename_letters_never_wrap bigGraph [] (by decide) (by decide)⟩
